import Mathlib

/-!
Verification of the mesh-extraction, vertex-deduplication and
progress-reporting pipeline of `src/converter.py`
(`convert_step_to_glb` and `_safe_call_progress`).

Modelling conventions:
* Python floats are modelled as exact rationals; `round(x, d)` is modelled
  as exact round-half-to-even at `d` decimal digits.  A rounded coordinate
  is represented in fixed point, as the integer `round(x * 10 ^ d)`; the
  stored integer `k` stands for the float value `k / 10 ^ d`, so SpatialKeys
  (and the vertices built from them) are integer triples.  This is a
  bijective re-representation of the rounded float triples the source
  stores, and keeps every model computation in integer arithmetic.
* The STEP reader, tessellator and GLB exporter are external collaborators;
  they are modelled by boolean fields of `Input` (`srcExists`, `libsOk`,
  `readOk`, `exportOk`) that select the corresponding control-flow branch
  of the source.
* A `Face` carries its optional triangulation (`BRep_Tool.Triangulation`
  may return None) and its location transform.  `Triangulation.node`
  models the 1-based `Node(i)` accessor; triangulations produced by the
  mesher are always in range, out-of-range access is modelled with a
  default point.
* Event messages that interpolate a file path or an exception text are
  abbreviated to their constant prefix; messages interpolating counters
  are reproduced.
* The observer callback may raise (`Except.error`); `safeCall` models
  `_safe_call_progress`, which swallows any such error.  The pure model
  records the full event trace in the result so that properties of the
  observer channel can be stated.
-/

namespace StepGlb

/-- A 3-D point, in world or local space.  Python float triples are
modelled as exact rationals. -/
structure Point where
  x : ℚ
  y : ℚ
  z : ℚ
deriving DecidableEq

/-- round(q, d) in fixed point: the nearest integer to q * 10 ^ d, halves
to even (Python round() on an exactly represented value), computed on the
exact numerator and denominator.  The result k represents the rounded
coordinate value k / 10 ^ d. -/
def roundScaled (d : ℕ) (q : ℚ) : ℤ :=
  let n : ℤ := q.num * 10 ^ d
  let den : ℤ := (q.den : ℤ)
  let f : ℤ := Int.fdiv n den
  let r2 : ℤ := 2 * (n - f * den)
  if r2 < den then f
  else if den < r2 then f + 1
  else if f % 2 = 0 then f else f + 1

/-- A SpatialKey: the three coordinates rounded to the configured number
of decimal digits, in fixed-point representation. -/
abbrev SKey := ℤ × ℤ × ℤ

/-- The SpatialKey of a point (converter.py lines 137-141, 161-169). -/
def spatialKey (d : ℕ) (p : Point) : SKey :=
  (roundScaled d p.x, roundScaled d p.y, roundScaled d p.z)

/-- A per-face triangulation: nodes, and triangles as 1-based node index
triples (Poly_Triangle.Value). -/
structure Triangulation where
  nodes : List Point
  tris : List (ℕ × ℕ × ℕ)

/-- triangulation.Node(i), 1-based.  Out-of-range access raises in the
bindings and never happens for mesher-produced triangulations; it is
modelled by a default point. -/
def Triangulation.node (t : Triangulation) (i : ℕ) : Point :=
  t.nodes.getD (i - 1) ⟨0, 0, 0⟩

/-- One face of the shape: its optional triangulation (None when the
tessellator skipped the face) and its location transform.  The
try/except around Transformed never lets an exception escape, so the
transform is modelled as a total function. -/
structure Face where
  triangulation : Option Triangulation
  trsf : Point → Point

/-- The growing mesh state: vertices, the vertex_map dictionary, the
triangle index list and tri_count (converter.py lines 89-92, 107).
Vertices are stored as the rounded coordinate triples (fixed point). -/
structure MState where
  vertices : List SKey
  vmap : List (SKey × ℕ)
  tris : List (ℕ × ℕ × ℕ)
  triCount : ℕ
deriving DecidableEq

def emptyMState : MState := ⟨[], [], [], 0⟩

/-- vertex_map lookup: the dictionary is modelled as an insertion-ordered
association list, lookup returns the value of the first matching key. -/
def lookupV (m : List (SKey × ℕ)) (k : SKey) : Option ℕ :=
  (m.find? fun e => decide (e.1 = k)).map Prod.snd

/-- Python dict assignment vertex_map[k] = v: update in place when the key
is present, append otherwise. -/
def dinsert (m : List (SKey × ℕ)) (k : SKey) (v : ℕ) : List (SKey × ℕ) :=
  match m with
  | [] => [(k, v)]
  | e :: es => if e.1 = k then (k, v) :: es else e :: dinsert es k v

/-- idx = len(vertices); vertex_map[k] = idx; vertices.append(k)
(converter.py lines 144-146 and 176-181; the appended vertex is exactly
the rounded coordinate triple). -/
def pushV (st : MState) (k : SKey) : MState :=
  { st with vmap := dinsert st.vmap k st.vertices.length,
            vertices := st.vertices ++ [k] }

/-- Body of the node-insertion loop (converter.py lines 131-146):
deduplicate by rounded coordinate, first seen wins. -/
def insertNode (d : ℕ) (st : MState) (p : Point) : MState :=
  match lookupV st.vmap (spatialKey d p) with
  | some _ => st
  | none => pushV st (spatialKey d p)

/-- vertex_map.get for one corner, with the deferred insert of lines
176-181: the lookup result o was computed before any of the three
inserts ran. -/
def resolveV (st : MState) (o : Option ℕ) (c : SKey) : ℕ × MState :=
  match o with
  | some i => (i, st)
  | none => (st.vertices.length, pushV st c)

/-- Triangle processing (converter.py lines 149-184): the three corner
keys are all looked up first, then missing ones are inserted in order,
then the index triple is appended and tri_count incremented. -/
def processTri (d : ℕ) (trsf : Point → Point) (t : Triangulation) (st : MState)
    (tr : ℕ × ℕ × ℕ) : MState :=
  let ca := spatialKey d (trsf (t.node tr.1))
  let cb := spatialKey d (trsf (t.node tr.2.1))
  let cc := spatialKey d (trsf (t.node tr.2.2))
  let ia0 := lookupV st.vmap ca
  let ib0 := lookupV st.vmap cb
  let ic0 := lookupV st.vmap cc
  let r1 := resolveV st ia0 ca
  let r2 := resolveV r1.2 ib0 cb
  let r3 := resolveV r2.2 ic0 cc
  { r3.2 with tris := r3.2.tris ++ [(r1.1, r2.1, r3.1)],
              triCount := r3.2.triCount + 1 }

/-- Per-face processing: insert all nodes (transformed then rounded),
then process all triangles (converter.py lines 126-184). -/
def processFace (d : ℕ) (trsf : Point → Point) (t : Triangulation) (st : MState) : MState :=
  let st1 := t.nodes.foldl (fun s p => insertNode d s (trsf p)) st
  t.tris.foldl (fun s tr => processTri d trsf t s tr) st1

/-- A progress event: the percent/state/message triple passed to
_safe_call_progress.  The source always passes all three fields at every
checkpoint. -/
structure Event where
  percent : ℤ
  state : String
  message : String
deriving DecidableEq

/-- update_every = max(1, ceil(total_faces / 100)) (converter.py line 110). -/
def updateEvery (total : ℕ) : ℕ := max 1 ((total + 99) / 100)

/-- pct = 12 + int((face_processed / total_faces) * (90 - 12))
(converter.py line 189), with the float arithmetic modelled exactly. -/
def pctOf (fp total : ℕ) : ℤ := 12 + ((fp * 78) / total : ℕ)

def processedMsg (fp total : ℕ) : String :=
  "Processed " ++ toString fp ++ "/" ++ toString total ++ " faces"

/-- The periodic processing update (converter.py line 190). -/
def procEvent (fp total : ℕ) : Event :=
  ⟨pctOf fp total, "processing", processedMsg fp total⟩

/-- State of the face-processing loop: the mesh, face_processed, and the
events emitted so far. -/
structure WState where
  mesh : MState
  faceProcessed : ℕ
  events : List Event
deriving DecidableEq

/-- The face-processing loop (converter.py lines 112-192).  In the
no-triangulation branch the source advances the explorer twice (lines
119 and 123), so the face following an untriangulated face is skipped
entirely; the progress block in that branch (lines 121-122) is dead code
and emits nothing.  When the untriangulated face is the last one, the
second Next() runs past the end of the explorer, which raises
Standard_NoMoreObject; the raise aborts the loop and is caught by the
top-level handler.  The returned flag records that raise. -/
def stepFaces (d total : ℕ) : List Face → WState → WState × Bool
  | [], w => (w, false)
  | ⟨none, _⟩ :: [], w => ({ w with faceProcessed := w.faceProcessed + 1 }, true)
  | ⟨none, _⟩ :: _ :: rest2, w =>
      stepFaces d total rest2 { w with faceProcessed := w.faceProcessed + 1 }
  | ⟨some t, trsf⟩ :: rest, w =>
      let fp := w.faceProcessed + 1
      let m := processFace d trsf t w.mesh
      let evs := if fp % updateEvery total = 0 ∨ fp = total
        then w.events ++ [procEvent fp total]
        else w.events
      stepFaces d total rest ⟨m, fp, evs⟩

/-- The input of one conversion: whether the source file exists, whether
the heavy libraries import, whether the STEP read succeeds, the faces of
the shape in enumeration order, and whether the export/write step
succeeds. -/
structure Input where
  srcExists : Bool
  libsOk : Bool
  readOk : Bool
  faces : List Face
  exportOk : Bool

/-- The optional progress callback; it may raise. -/
abbrev Cb := Option (Event → Except String Unit)

/-- _safe_call_progress (converter.py lines 22-28): invoke the callback if
present; any exception it raises is caught and discarded. -/
def safeCall (cb : Cb) (e : Event) : Unit :=
  match cb with
  | none => ()
  | some f =>
    match f e with
    | Except.ok _ => ()
    | Except.error _ => ()

/-- The outcome of a conversion: the returned (success, message) pair,
together with the full event trace delivered to the observer, the final
mesh state, and the final face_processed counter. -/
structure Result where
  ok : Bool
  message : String
  events : List Event
  mesh : MState
  facesVisited : ℕ

def evNotFound : Event := ⟨0, "error", "Input file not found"⟩
def evLibsMissing : Event := ⟨0, "error", "Required libraries missing or failed to import"⟩
def evStart : Event := ⟨1, "starting", "Starting conversion"⟩
def evReadFail : Event := ⟨0, "error", "STEP read failed"⟩
def evLoaded : Event := ⟨5, "loaded", "STEP file loaded"⟩
def evMeshing : Event := ⟨8, "meshing", "Starting tessellation"⟩
def evMeshed : Event := ⟨12, "meshed", "Tessellation complete"⟩
def evNoFaces : Event := ⟨0, "error", "No faces found in STEP"⟩
def evEmptyMesh : Event := ⟨0, "error", "No mesh extracted from STEP file."⟩
def evExporting : Event := ⟨90, "exporting", "Preparing to export GLB"⟩
def evException : Event := ⟨0, "error", "Conversion exception"⟩

def convMsg (total tc nv : ℕ) : String :=
  "Converted: faces=" ++ toString total ++ ", triangles=" ++ toString tc ++
    ", verts=" ++ toString nv

def evFinished (total tc nv : ℕ) : Event := ⟨100, "finished", convMsg total tc nv⟩

/-- convert_step_to_glb (converter.py lines 30-218).  The enumeration walk
(lines 95-99) counts every face once, so total_faces is the length of the
face list; the processing walk is stepFaces.  Every checkpoint goes
through safeCall; the trace of checkpoints is recorded in the result. -/
def convert (inp : Input) (d : ℕ) (cb : Cb) : Result :=
  if inp.srcExists = false then
    let _ := safeCall cb evNotFound
    ⟨false, "Input file not found", [evNotFound], emptyMState, 0⟩
  else if inp.libsOk = false then
    let _ := safeCall cb evLibsMissing
    ⟨false, "Required libraries missing or failed to import. Install pythonocc-core and trimesh.",
      [evLibsMissing], emptyMState, 0⟩
  else
    let _ := safeCall cb evStart
    if inp.readOk = false then
      let _ := safeCall cb evReadFail
      ⟨false, "STEP read failed", [evStart, evReadFail], emptyMState, 0⟩
    else
      let _ := safeCall cb evLoaded
      let _ := safeCall cb evMeshing
      let _ := safeCall cb evMeshed
      if inp.faces.length = 0 then
        let _ := safeCall cb evNoFaces
        ⟨false, "No faces found in STEP file.",
          [evStart, evLoaded, evMeshing, evMeshed, evNoFaces], emptyMState, 0⟩
      else
        let wr := stepFaces d inp.faces.length inp.faces ⟨emptyMState, 0, []⟩
        let w := wr.1
        let _ := w.events.map (safeCall cb)
        if wr.2 = true then
          -- Standard_NoMoreObject escaped the loop; caught at line 215
          let _ := safeCall cb evException
          ⟨false, "Conversion exception",
            [evStart, evLoaded, evMeshing, evMeshed] ++ w.events ++ [evException],
            w.mesh, w.faceProcessed⟩
        else if w.mesh.vertices = [] ∨ w.mesh.tris = [] then
          let _ := safeCall cb evEmptyMesh
          ⟨false, "No mesh extracted from STEP file.",
            [evStart, evLoaded, evMeshing, evMeshed] ++ w.events ++ [evEmptyMesh],
            w.mesh, w.faceProcessed⟩
        else
          let _ := safeCall cb evExporting
          if inp.exportOk = false then
            let _ := safeCall cb evException
            ⟨false, "Conversion exception",
              [evStart, evLoaded, evMeshing, evMeshed] ++ w.events ++ [evExporting, evException],
              w.mesh, w.faceProcessed⟩
          else
            let _ := safeCall cb (evFinished inp.faces.length w.mesh.triCount w.mesh.vertices.length)
            ⟨true, convMsg inp.faces.length w.mesh.triCount w.mesh.vertices.length,
              [evStart, evLoaded, evMeshing, evMeshed] ++ w.events ++
                [evExporting, evFinished inp.faces.length w.mesh.triCount w.mesh.vertices.length],
              w.mesh, w.faceProcessed⟩

/-! Concrete shapes used as witnesses and failing inputs. -/

def pA : Point := ⟨0, 0, 0⟩
def pB : Point := ⟨1, 0, 0⟩
def pC : Point := ⟨0, 1, 0⟩
def pD : Point := ⟨1, 1, 0⟩

def triA : Triangulation := ⟨[pA, pB, pC], [(1, 2, 3)]⟩
def triB : Triangulation := ⟨[pB, pC, pD], [(1, 2, 3)]⟩

def faceA : Face := ⟨some triA, fun p => p⟩
def faceB : Face := ⟨some triB, fun p => p⟩
def faceN : Face := ⟨none, fun p => p⟩

def inpOne : Input := ⟨true, true, true, [faceA], true⟩
def inpTwo : Input := ⟨true, true, true, [faceA, faceB], true⟩
def inpSkip2 : Input := ⟨true, true, true, [faceN, faceA], true⟩
def inpSkip3 : Input := ⟨true, true, true, [faceA, faceN, faceB], true⟩
def inpSkip4 : Input := ⟨true, true, true, [faceA, faceN, faceB, faceB], true⟩

/-- A point distinct from pA whose coordinates round to those of pA at six
decimal digits. -/
def pEq : Point := ⟨Rat.mk' 1 1000000000, 0, 0⟩

def triEq : Triangulation := ⟨[pA, pEq], [(1, 2, 2)]⟩
def inpSkipEq : Input := ⟨true, true, true, [faceN, ⟨some triEq, fun p => p⟩], true⟩

def inpReadFail : Input := ⟨true, true, false, [], true⟩
def inpNoFaces : Input := ⟨true, true, true, [], true⟩

/-- Two untriangulated faces: the double advance at the first face lands
exactly on the end of the explorer, the loop exits normally, and the
accumulated mesh is empty. -/
def inpNoneTwo : Input := ⟨true, true, true, [faceN, faceN], true⟩

/-! Specification predicates. -/

/-- Every vertex_map entry points at the vertex slot holding exactly its
key: vertices[i] = k for every (k, i) in the table. -/
def VKeyOk (st : MState) : Prop :=
  ∀ e ∈ st.vmap, st.vertices.get? e.2 = some e.1

/-- Every index of every triangle is a valid index into the vertex list. -/
def TriOk (st : MState) : Prop :=
  ∀ tr ∈ st.tris, tr.1 < st.vertices.length ∧ tr.2.1 < st.vertices.length ∧
    tr.2.2 < st.vertices.length

/-- The mesh-state invariant maintained by the face walk. -/
def MeshInv (st : MState) : Prop := VKeyOk st ∧ TriOk st

/-- Bool test for processing-update events. -/
def isProc (e : Event) : Bool := e.state = "processing"

/-! Basic lemmas about the vertex table. -/

theorem lookupV_eq_some {m : List (SKey × ℕ)} {k : SKey} {i : ℕ}
    (h : lookupV m k = some i) : (k, i) ∈ m := by
  unfold lookupV at h
  cases hf : m.find? (fun e => decide (e.1 = k)) with
  | none => rw [hf] at h; simp at h
  | some e =>
    rw [hf] at h
    simp only [Option.map_some'] at h
    have hm := List.mem_of_find?_eq_some hf
    have hp := List.find?_some hf
    simp only [decide_eq_true_eq] at hp
    cases e with
    | mk k' v =>
      simp only at hp h
      simp only [Option.some_inj] at h
      subst hp
      subst h
      exact hm

theorem lt_length_of_get?_eq_some {α : Type} {l : List α} {i : ℕ} {a : α}
    (h : l.get? i = some a) : i < l.length := by
  obtain ⟨hlt, -⟩ := List.get?_eq_some.mp h
  exact hlt

theorem vkeyOk_lookup {st : MState} (h : VKeyOk st) {k : SKey} {i : ℕ}
    (hl : lookupV st.vmap k = some i) :
    st.vertices.get? i = some k ∧ i < st.vertices.length := by
  have hm := h _ (lookupV_eq_some hl)
  exact ⟨hm, lt_length_of_get?_eq_some hm⟩

theorem mem_dinsert {m : List (SKey × ℕ)} {k : SKey} {v : ℕ} :
    ∀ e ∈ dinsert m k v, e = (k, v) ∨ e ∈ m := by
  induction m with
  | nil =>
    intro e he
    simp only [dinsert, List.mem_singleton] at he
    exact Or.inl he
  | cons a as ih =>
    intro e he
    unfold dinsert at he
    split at he
    · rcases List.mem_cons.mp he with h1 | h2
      · exact Or.inl h1
      · exact Or.inr (List.mem_cons_of_mem _ h2)
    · rcases List.mem_cons.mp he with h1 | h2
      · exact Or.inr (h1 ▸ List.mem_cons_self a as)
      · rcases ih e h2 with h3 | h4
        · exact Or.inl h3
        · exact Or.inr (List.mem_cons_of_mem _ h4)

theorem pushV_vertices (st : MState) (k : SKey) :
    (pushV st k).vertices = st.vertices ++ [k] := rfl

theorem pushV_tris (st : MState) (k : SKey) : (pushV st k).tris = st.tris := rfl

theorem vkeyOk_pushV {st : MState} (h : VKeyOk st) (k : SKey) : VKeyOk (pushV st k) := by
  intro e he
  rcases mem_dinsert e he with h1 | h2
  · subst h1
    show (st.vertices ++ [k]).get? st.vertices.length = some k
    exact List.get?_concat_length _ _
  · have hv := h e h2
    show (st.vertices ++ [k]).get? e.2 = some e.1
    rw [List.get?_append (lt_length_of_get?_eq_some hv)]
    exact hv

theorem triOk_grow {st st' : MState} (h : TriOk st) (htr : st'.tris = st.tris)
    (hlen : st.vertices.length ≤ st'.vertices.length) : TriOk st' := by
  intro tr htr'
  have := h tr (htr ▸ htr')
  exact ⟨lt_of_lt_of_le this.1 hlen, lt_of_lt_of_le this.2.1 hlen,
    lt_of_lt_of_le this.2.2 hlen⟩

theorem meshInv_pushV {st : MState} (h : MeshInv st) (k : SKey) : MeshInv (pushV st k) := by
  refine ⟨vkeyOk_pushV h.1 k, triOk_grow h.2 (pushV_tris st k) ?_⟩
  rw [pushV_vertices, List.length_append]
  exact Nat.le_add_right _ _

/-! Step lemmas: each mesh operation preserves the invariant and only
appends to the vertex list. -/

theorem insertNode_spec (d : ℕ) (st : MState) (p : Point) :
    (MeshInv st → MeshInv (insertNode d st p)) ∧
    (∃ vs, (insertNode d st p).vertices = st.vertices ++ vs) ∧
    (insertNode d st p).tris = st.tris := by
  unfold insertNode
  cases hl : lookupV st.vmap (spatialKey d p) with
  | some i => exact ⟨fun h => h, ⟨[], by simp⟩, rfl⟩
  | none =>
    exact ⟨fun h => meshInv_pushV h _, ⟨[spatialKey d p], rfl⟩, pushV_tris st _⟩

theorem resolveV_spec {st : MState} {o : Option ℕ} (c : SKey) (h : MeshInv st)
    (ho : ∀ i, o = some i → i < st.vertices.length) :
    MeshInv (resolveV st o c).2 ∧
    (resolveV st o c).1 < (resolveV st o c).2.vertices.length ∧
    (∃ vs, (resolveV st o c).2.vertices = st.vertices ++ vs) ∧
    (resolveV st o c).2.tris = st.tris := by
  cases o with
  | some i =>
    exact ⟨h, ho i rfl, ⟨[], by simp [resolveV]⟩, rfl⟩
  | none =>
    refine ⟨meshInv_pushV h c, ?_, ⟨[c], rfl⟩, pushV_tris st c⟩
    show st.vertices.length < (st.vertices ++ [c]).length
    rw [List.length_append]
    simp

theorem processTri_spec (d : ℕ) (trsf : Point → Point) (t : Triangulation)
    (st : MState) (tr : ℕ × ℕ × ℕ) :
    (MeshInv st → MeshInv (processTri d trsf t st tr)) ∧
    (∃ vs, (processTri d trsf t st tr).vertices = st.vertices ++ vs) := by
  unfold processTri
  dsimp only
  set ca := spatialKey d (trsf (t.node tr.1)) with hca
  set cb := spatialKey d (trsf (t.node tr.2.1)) with hcb
  set cc := spatialKey d (trsf (t.node tr.2.2)) with hcc
  by_cases h : MeshInv st
  case pos =>
    have h1 := resolveV_spec (o := lookupV st.vmap ca) ca h
      (fun i hi => (vkeyOk_lookup h.1 hi).2)
    set r1 := resolveV st (lookupV st.vmap ca) ca with hr1
    obtain ⟨hInv1, hi1, ⟨vs1, hv1⟩, ht1⟩ := h1
    have hb2 : ∀ i, lookupV st.vmap cb = some i → i < r1.2.vertices.length := by
      intro i hi
      have := (vkeyOk_lookup h.1 hi).2
      rw [hv1, List.length_append]
      omega
    have h2 := resolveV_spec (o := lookupV st.vmap cb) cb hInv1 hb2
    set r2 := resolveV r1.2 (lookupV st.vmap cb) cb with hr2
    obtain ⟨hInv2, hi2, ⟨vs2, hv2⟩, ht2⟩ := h2
    have hb3 : ∀ i, lookupV st.vmap cc = some i → i < r2.2.vertices.length := by
      intro i hi
      have := (vkeyOk_lookup h.1 hi).2
      rw [hv2, hv1, List.length_append, List.length_append]
      omega
    have h3 := resolveV_spec (o := lookupV st.vmap cc) cc hInv2 hb3
    set r3 := resolveV r2.2 (lookupV st.vmap cc) cc with hr3
    obtain ⟨hInv3, hi3, ⟨vs3, hv3⟩, ht3⟩ := h3
    have hlen12 : r1.2.vertices.length ≤ r2.2.vertices.length := by
      rw [hv2, List.length_append]; omega
    have hlen23 : r2.2.vertices.length ≤ r3.2.vertices.length := by
      rw [hv3, List.length_append]; omega
    constructor
    · intro _
      constructor
      · exact hInv3.1
      · intro q hq
        rw [ht3, ht2, ht1] at hq
        rcases List.mem_append.mp hq with hq1 | hq2
        · have := h.2 q hq1
          have hst3 : st.vertices.length ≤ r3.2.vertices.length := by
            rw [hv3, hv2, hv1]
            simp [List.length_append]
          exact ⟨lt_of_lt_of_le this.1 hst3, lt_of_lt_of_le this.2.1 hst3,
            lt_of_lt_of_le this.2.2 hst3⟩
        · have hq3 : q = (r1.1, r2.1, r3.1) := by simpa using hq2
          subst hq3
          exact ⟨lt_of_lt_of_le hi1 (le_trans hlen12 hlen23),
            lt_of_lt_of_le hi2 hlen23, hi3⟩
    · exact ⟨vs1 ++ vs2 ++ vs3, by rw [hv3, hv2, hv1]; simp⟩
  case neg =>
    refine ⟨fun hc => absurd hc h, ?_⟩
    -- the vertex list still only grows, by direct case analysis
    cases ho1 : lookupV st.vmap ca with
    | some i1 =>
      cases ho2 : lookupV st.vmap cb with
      | some i2 =>
        cases ho3 : lookupV st.vmap cc with
        | some i3 => exact ⟨[], by simp [resolveV, ho1, ho2, ho3]⟩
        | none => exact ⟨[cc], by simp [resolveV, ho1, ho2, ho3, pushV]⟩
      | none =>
        cases ho3 : lookupV st.vmap cc with
        | some i3 => exact ⟨[cb], by simp [resolveV, ho1, ho2, ho3, pushV]⟩
        | none => exact ⟨[cb, cc], by simp [resolveV, ho1, ho2, ho3, pushV]⟩
    | none =>
      cases ho2 : lookupV st.vmap cb with
      | some i2 =>
        cases ho3 : lookupV st.vmap cc with
        | some i3 => exact ⟨[ca], by simp [resolveV, ho1, ho2, ho3, pushV]⟩
        | none => exact ⟨[ca, cc], by simp [resolveV, ho1, ho2, ho3, pushV]⟩
      | none =>
        cases ho3 : lookupV st.vmap cc with
        | some i3 => exact ⟨[ca, cb], by simp [resolveV, ho1, ho2, ho3, pushV]⟩
        | none => exact ⟨[ca, cb, cc], by simp [resolveV, ho1, ho2, ho3, pushV]⟩

theorem foldl_insertNode_spec (d : ℕ) (trsf : Point → Point) :
    ∀ (l : List Point) (st : MState),
      (MeshInv st → MeshInv (l.foldl (fun s p => insertNode d s (trsf p)) st)) := by
  intro l
  induction l with
  | nil => intro st h; simpa using h
  | cons p ps ih =>
    intro st h
    simp only [List.foldl_cons]
    exact ih _ ((insertNode_spec d st (trsf p)).1 h)

theorem foldl_processTri_spec (d : ℕ) (trsf : Point → Point) (t : Triangulation) :
    ∀ (l : List (ℕ × ℕ × ℕ)) (st : MState),
      (MeshInv st → MeshInv (l.foldl (fun s tr => processTri d trsf t s tr) st)) := by
  intro l
  induction l with
  | nil => intro st h; simpa using h
  | cons q qs ih =>
    intro st h
    simp only [List.foldl_cons]
    exact ih _ ((processTri_spec d trsf t st q).1 h)

theorem processFace_meshInv {d : ℕ} {trsf : Point → Point} {t : Triangulation}
    {st : MState} (h : MeshInv st) : MeshInv (processFace d trsf t st) :=
  foldl_processTri_spec d trsf t t.tris _ (foldl_insertNode_spec d trsf t.nodes st h)

/-! Lemmas about the face-processing walk. -/

theorem stepFaces_fp_aux (d total : ℕ) :
    ∀ n : ℕ, ∀ fs : List Face, fs.length ≤ n → ∀ w : WState,
      w.faceProcessed ≤ (stepFaces d total fs w).1.faceProcessed ∧
      (stepFaces d total fs w).1.faceProcessed ≤ w.faceProcessed + fs.length := by
  intro n
  induction n with
  | zero =>
    intro fs hle w
    have h0 : fs = [] := List.length_eq_zero.mp (Nat.le_zero.mp hle)
    subst h0
    simp [stepFaces]
  | succ n ih =>
    intro fs hle w
    rcases fs with _ | ⟨⟨tri, ftr⟩, rest⟩
    · simp [stepFaces]
    · cases tri with
      | none =>
        rcases rest with _ | ⟨g, rest2⟩
        · simp [stepFaces]
        · have hlen : rest2.length ≤ n := by
            simp only [List.length_cons] at hle; omega
          have hih := ih rest2 hlen ⟨w.mesh, w.faceProcessed + 1, w.events⟩
          simp only [stepFaces, List.length_cons]
          simp only at hih
          omega
      | some t =>
        have hlen : rest.length ≤ n := by
          simp only [List.length_cons] at hle; omega
        simp only [stepFaces]
        set m := processFace d ftr t w.mesh
        set evs := if (w.faceProcessed + 1) % updateEvery total = 0 ∨
            w.faceProcessed + 1 = total
          then w.events ++ [procEvent (w.faceProcessed + 1) total] else w.events
        have hih := ih rest hlen ⟨m, w.faceProcessed + 1, evs⟩
        simp only at hih
        simp only [List.length_cons]
        omega

theorem stepFaces_fp (d total : ℕ) (fs : List Face) (w : WState) :
    w.faceProcessed ≤ (stepFaces d total fs w).1.faceProcessed ∧
    (stepFaces d total fs w).1.faceProcessed ≤ w.faceProcessed + fs.length :=
  stepFaces_fp_aux d total fs.length fs le_rfl w

theorem stepFaces_meshInv_aux (d total : ℕ) :
    ∀ n : ℕ, ∀ fs : List Face, fs.length ≤ n → ∀ w : WState,
      MeshInv w.mesh → MeshInv (stepFaces d total fs w).1.mesh := by
  intro n
  induction n with
  | zero =>
    intro fs hle w h
    have h0 : fs = [] := List.length_eq_zero.mp (Nat.le_zero.mp hle)
    subst h0
    simpa [stepFaces] using h
  | succ n ih =>
    intro fs hle w h
    rcases fs with _ | ⟨⟨tri, ftr⟩, rest⟩
    · simpa [stepFaces] using h
    · cases tri with
      | none =>
        rcases rest with _ | ⟨g, rest2⟩
        · simpa [stepFaces] using h
        · have hlen : rest2.length ≤ n := by
            simp only [List.length_cons] at hle; omega
          simp only [stepFaces]
          exact ih rest2 hlen ⟨w.mesh, w.faceProcessed + 1, w.events⟩ h
      | some t =>
        have hlen : rest.length ≤ n := by
          simp only [List.length_cons] at hle; omega
        simp only [stepFaces]
        exact ih rest hlen _ (processFace_meshInv h)

theorem stepFaces_meshInv (d total : ℕ) (fs : List Face) (w : WState)
    (h : MeshInv w.mesh) : MeshInv (stepFaces d total fs w).1.mesh :=
  stepFaces_meshInv_aux d total fs.length fs le_rfl w h

/-- Every event emitted by the walk is a processing update procEvent fp
total for a strictly increasing sequence of face counters, each past the
initial counter, at most the final counter, and satisfying the cadence
condition of converter.py line 187. -/
theorem stepFaces_events_aux (d total : ℕ) :
    ∀ n : ℕ, ∀ fs : List Face, fs.length ≤ n → ∀ w : WState,
      ∃ fps : List ℕ,
        (stepFaces d total fs w).1.events =
          w.events ++ fps.map (fun fp => procEvent fp total) ∧
        List.Chain' (· < ·) fps ∧
        ∀ fp ∈ fps, w.faceProcessed < fp ∧
          fp ≤ (stepFaces d total fs w).1.faceProcessed ∧
          (fp % updateEvery total = 0 ∨ fp = total) := by
  intro n
  induction n with
  | zero =>
    intro fs hle w
    have h0 : fs = [] := List.length_eq_zero.mp (Nat.le_zero.mp hle)
    subst h0
    exact ⟨[], by simp [stepFaces], by simp, by simp⟩
  | succ n ih =>
    intro fs hle w
    rcases fs with _ | ⟨⟨tri, ftr⟩, rest⟩
    · exact ⟨[], by simp [stepFaces], by simp, by simp⟩
    · cases tri with
      | none =>
        rcases rest with _ | ⟨g, rest2⟩
        · exact ⟨[], by simp [stepFaces], by simp, by simp⟩
        · have hlen : rest2.length ≤ n := by
            simp only [List.length_cons] at hle; omega
          obtain ⟨fps, h1, h2, h3⟩ := ih rest2 hlen ⟨w.mesh, w.faceProcessed + 1, w.events⟩
          refine ⟨fps, ?_, h2, ?_⟩
          · simpa [stepFaces] using h1
          · intro fp hfp
            have := h3 fp hfp
            simp only at this
            simp only [stepFaces]
            exact ⟨by omega, this.2.1, this.2.2⟩
      | some t =>
        have hlen : rest.length ≤ n := by
          simp only [List.length_cons] at hle; omega
        by_cases hc : (w.faceProcessed + 1) % updateEvery total = 0 ∨
            w.faceProcessed + 1 = total
        · -- an update is emitted for this face
          obtain ⟨fps, h1, h2, h3⟩ := ih rest hlen
            ⟨processFace d ftr t w.mesh, w.faceProcessed + 1,
              w.events ++ [procEvent (w.faceProcessed + 1) total]⟩
          refine ⟨(w.faceProcessed + 1) :: fps, ?_, ?_, ?_⟩
          · simp only [stepFaces, if_pos hc]
            simp only at h1
            rw [h1]
            simp
          · rw [List.chain'_cons']
            refine ⟨?_, h2⟩
            intro y hy
            exact (h3 y (List.mem_of_mem_head? hy)).1
          · intro fp hfp
            rcases List.mem_cons.mp hfp with he | hm
            · subst he
              refine ⟨Nat.lt_succ_self _, ?_, hc⟩
              simp only [stepFaces, if_pos hc]
              exact (stepFaces_fp d total rest
                ⟨processFace d ftr t w.mesh, w.faceProcessed + 1,
                  w.events ++ [procEvent (w.faceProcessed + 1) total]⟩).1
            · have := h3 fp hm
              simp only at this
              simp only [stepFaces, if_pos hc]
              exact ⟨by omega, this.2.1, this.2.2⟩
        · -- no update for this face
          obtain ⟨fps, h1, h2, h3⟩ := ih rest hlen
            ⟨processFace d ftr t w.mesh, w.faceProcessed + 1, w.events⟩
          refine ⟨fps, ?_, h2, ?_⟩
          · simp only [stepFaces, if_neg hc]
            simpa using h1
          · intro fp hfp
            have := h3 fp hfp
            simp only at this
            simp only [stepFaces, if_neg hc]
            exact ⟨by omega, this.2.1, this.2.2⟩

theorem stepFaces_events (d total : ℕ) (fs : List Face) (w : WState) :
    ∃ fps : List ℕ,
      (stepFaces d total fs w).1.events =
        w.events ++ fps.map (fun fp => procEvent fp total) ∧
      List.Chain' (· < ·) fps ∧
      ∀ fp ∈ fps, w.faceProcessed < fp ∧
        fp ≤ (stepFaces d total fs w).1.faceProcessed ∧
        (fp % updateEvery total = 0 ∨ fp = total) :=
  stepFaces_events_aux d total fs.length fs le_rfl w

/-- When every face carries a triangulation, face_processed advances by
exactly one per face. -/
theorem stepFaces_fp_allSome (d total : ℕ) :
    ∀ fs : List Face, ∀ w : WState,
      (∀ f ∈ fs, f.triangulation.isSome = true) →
      (stepFaces d total fs w).1.faceProcessed = w.faceProcessed + fs.length := by
  intro fs
  induction fs with
  | nil => intro w _; simp [stepFaces]
  | cons f rest ih =>
    intro w hall
    rcases f with ⟨tri, ftr⟩
    cases tri with
    | none =>
      have := hall ⟨none, ftr⟩ (List.mem_cons_self _ _)
      simp at this
    | some t =>
      simp only [stepFaces]
      rw [ih _ (fun g hg => hall g (List.mem_cons_of_mem _ hg))]
      simp only [List.length_cons]
      omega

/-- When every face carries a triangulation and the walk reaches the
total count, the last emitted event is the final-face update. -/
theorem stepFaces_lastEvent (d total : ℕ) :
    ∀ fs : List Face, ∀ w : WState,
      (∀ f ∈ fs, f.triangulation.isSome = true) →
      fs ≠ [] → w.faceProcessed + fs.length = total →
      ∃ pre, (stepFaces d total fs w).1.events = pre ++ [procEvent total total] := by
  intro fs
  induction fs with
  | nil => intro w _ hne; exact absurd rfl hne
  | cons f rest ih =>
    intro w hall _ htot
    rcases f with ⟨tri, ftr⟩
    cases tri with
    | none =>
      have := hall ⟨none, ftr⟩ (List.mem_cons_self _ _)
      simp at this
    | some t =>
      rcases rest with _ | ⟨g, rest2⟩
      · have hfp : w.faceProcessed + 1 = total := by
          simpa using htot
        simp only [stepFaces, if_pos (Or.inr hfp)]
        refine ⟨w.events, ?_⟩
        simp [stepFaces, hfp]
      · have htot2 : (w.faceProcessed + 1) + (g :: rest2).length = total := by
          simp only [List.length_cons] at htot ⊢
          omega
        have hih := ih ⟨processFace d ftr t w.mesh, w.faceProcessed + 1,
          if (w.faceProcessed + 1) % updateEvery total = 0 ∨ w.faceProcessed + 1 = total
            then w.events ++ [procEvent (w.faceProcessed + 1) total] else w.events⟩
          (fun q hq => hall q (List.mem_cons_of_mem _ hq))
          (by simp) (by simpa using htot2)
        simpa [stepFaces] using hih

/-! Percent arithmetic. -/

theorem pctOf_ge_12 (fp total : ℕ) : (12 : ℤ) ≤ pctOf fp total := by
  unfold pctOf
  have : (0 : ℤ) ≤ ((fp * 78) / total : ℕ) := Int.ofNat_nonneg _
  omega

theorem pctOf_le_90 {fp total : ℕ} (h : fp ≤ total) : pctOf fp total ≤ 90 := by
  unfold pctOf
  rcases Nat.eq_zero_or_pos total with h0 | h0
  · subst h0
    simp
  · have h1 : fp * 78 / total ≤ total * 78 / total :=
      Nat.div_le_div_right (Nat.mul_le_mul_right _ h)
    rw [Nat.mul_div_cancel_left _ h0] at h1
    omega

theorem pctOf_mono {fp fp' : ℕ} (total : ℕ) (h : fp ≤ fp') :
    pctOf fp total ≤ pctOf fp' total := by
  unfold pctOf
  have h1 : fp * 78 / total ≤ fp' * 78 / total :=
    Nat.div_le_div_right (Nat.mul_le_mul_right _ h)
  omega

theorem pctOf_total {total : ℕ} (h : total ≠ 0) : pctOf total total = 90 := by
  unfold pctOf
  rw [Nat.mul_div_cancel_left _ (Nat.pos_of_ne_zero h)]
  rfl

/-! Which events are processing updates. -/

theorem isProc_procEvent (fp total : ℕ) : isProc (procEvent fp total) = true := rfl

theorem procEvent_state (fp total : ℕ) : (procEvent fp total).state = "processing" := rfl

theorem isProc_evFinished (a b c : ℕ) : isProc (evFinished a b c) = false := rfl

theorem percent_procEvent (fp total : ℕ) : (procEvent fp total).percent = pctOf fp total := rfl

theorem filter_isProc_pre :
    [evStart, evLoaded, evMeshing, evMeshed].filter isProc = [] := by decide

theorem filter_isProc_emptyTail : [evEmptyMesh].filter isProc = [] := by decide

theorem filter_isProc_excTail : [evExporting, evException].filter isProc = [] := by decide

theorem filter_isProc_excOnly : [evException].filter isProc = [] := by decide

theorem filter_isProc_finTail (a b c : ℕ) :
    [evExporting, evFinished a b c].filter isProc = [] := by
  simp [List.filter_cons, isProc_evFinished]
  decide

theorem filter_isProc_procs (total : ℕ) (fps : List ℕ) :
    (fps.map (fun fp => procEvent fp total)).filter isProc =
      fps.map (fun fp => procEvent fp total) :=
  List.filter_eq_self.mpr (by
    intro e he
    obtain ⟨fp, -, hfp⟩ := List.mem_map.mp he
    rw [← hfp]
    exact isProc_procEvent fp total)

/-- The processing updates of any conversion trace: they are exactly the
walk updates, at a strictly increasing sequence of face counters between
1 and the enumerated total, each a cadence point. -/
theorem convert_filter_isProc (inp : Input) (d : ℕ) (cb : Cb) :
    ∃ fps : List ℕ,
      ((convert inp d cb).events.filter isProc) =
        fps.map (fun fp => procEvent fp inp.faces.length) ∧
      List.Chain' (· < ·) fps ∧
      ∀ fp ∈ fps, 1 ≤ fp ∧ fp ≤ inp.faces.length ∧
        (fp % updateEvery inp.faces.length = 0 ∨ fp = inp.faces.length) := by
  obtain ⟨fps, h1, h2, h3⟩ :=
    stepFaces_events d inp.faces.length inp.faces ⟨emptyMState, 0, []⟩
  simp only [List.nil_append] at h1
  have hfps : ∀ fp ∈ fps, 1 ≤ fp ∧ fp ≤ inp.faces.length ∧
      (fp % updateEvery inp.faces.length = 0 ∨ fp = inp.faces.length) := by
    intro fp hfp
    have hb := h3 fp hfp
    simp only at hb
    have hfin := (stepFaces_fp d inp.faces.length inp.faces ⟨emptyMState, 0, []⟩).2
    simp only at hfin
    exact ⟨hb.1, le_trans hb.2.1 (by omega), hb.2.2⟩
  unfold convert
  dsimp only
  split_ifs with hsrc hlibs hread htot hraise hempty hexp
  · exact ⟨[], by simp only [List.map_nil]; decide, by simp, by simp⟩
  · exact ⟨[], by simp only [List.map_nil]; decide, by simp, by simp⟩
  · exact ⟨[], by simp only [List.map_nil]; decide, by simp, by simp⟩
  · exact ⟨[], by simp only [List.map_nil]; decide, by simp, by simp⟩
  · refine ⟨fps, ?_, h2, hfps⟩
    simp only [List.filter_append, filter_isProc_pre, filter_isProc_excOnly, h1,
      filter_isProc_procs, List.nil_append, List.append_nil]
  · refine ⟨fps, ?_, h2, hfps⟩
    simp only [List.filter_append, filter_isProc_pre, filter_isProc_emptyTail, h1,
      filter_isProc_procs, List.nil_append, List.append_nil]
  · refine ⟨fps, ?_, h2, hfps⟩
    simp only [List.filter_append, filter_isProc_pre, filter_isProc_excTail, h1,
      filter_isProc_procs, List.nil_append, List.append_nil]
  · refine ⟨fps, ?_, h2, hfps⟩
    simp only [List.filter_append, filter_isProc_pre, filter_isProc_finTail, h1,
      filter_isProc_procs, List.nil_append, List.append_nil]

/-- The final mesh of any conversion is either untouched or the walk
result. -/
theorem convert_mesh_cases (inp : Input) (d : ℕ) (cb : Cb) :
    (convert inp d cb).mesh = emptyMState ∨
    (convert inp d cb).mesh =
      (stepFaces d inp.faces.length inp.faces ⟨emptyMState, 0, []⟩).1.mesh := by
  unfold convert
  dsimp only
  split_ifs <;> simp

theorem emptyMState_meshInv : MeshInv emptyMState := by
  constructor
  · intro e he
    simp [emptyMState] at he
  · intro tr htr
    simp [emptyMState] at htr

/-- The final mesh of any conversion satisfies the mesh invariant. -/
theorem convert_meshInv (inp : Input) (d : ℕ) (cb : Cb) :
    MeshInv (convert inp d cb).mesh := by
  rcases convert_mesh_cases inp d cb with h | h
  · rw [h]; exact emptyMState_meshInv
  · rw [h]
    exact stepFaces_meshInv d inp.faces.length inp.faces ⟨emptyMState, 0, []⟩
      emptyMState_meshInv

/-! Claim theorems. -/

/-- Claim C1 (code bug evidence): the claim asks that the number of faces
visited by the processing walk equal the enumerated total, an
untriangulated face being skipped without affecting any other face.  In
inpSkip2 (two faces, the first without a triangulation) the walk visits
only one face: the double exp.Next() of converter.py lines 119 and 123
skips the triangulated second face, so the visited count 1 differs from
the enumerated total 2 and the second face contributes no geometry. -/
theorem faceWalk_skips_face_after_missing_triangulation :
    inpSkip2.faces.length = 2 ∧
    (convert inpSkip2 6 none).facesVisited = 1 ∧
    ((inpSkip2.faces.getLast?).map fun f => f.triangulation.isSome) = some true ∧
    (convert inpSkip2 6 none).mesh.vertices.length = 0 := by
  refine ⟨by decide, by decide, ?_, by decide⟩
  decide

/-- Claim C2 (code bug evidence): the claim asks for a processing update
exactly at each multiple of max(1, ceil(total/100)) and unconditionally
at the final face, so that the 90 percent checkpoint is emitted exactly
once whenever export is reached.  For inpSkip3 (three faces, the middle
one untriangulated) the run reaches export — the exporting checkpoint is
present and the conversion succeeds — yet the only processing update is
percent 38: no update was emitted at processed count 2 although 2 is a
multiple of update_every = 1 (the no-triangulation branch emits nothing,
its update code at lines 121-122 being dead), and no 90 percent
processing update is ever emitted because the double exp.Next() skips
the third face, so processed never reaches the total. -/
theorem progress_updates_missing_on_skip_run :
    inpSkip3.faces.length = 3 ∧
    updateEvery inpSkip3.faces.length = 1 ∧
    (convert inpSkip3 6 none).ok = true ∧
    (convert inpSkip3 6 none).facesVisited = 2 ∧
    ((convert inpSkip3 6 none).events.filter isProc).map Event.percent = [38] ∧
    ((convert inpSkip3 6 none).events.filter fun e => e.state = "exporting") ≠ [] := by
  decide

/-- Claim C3 (code bug evidence): the claim asks that two input points
whose coordinates agree after rounding map to one shared output vertex
index.  In inpSkipEq the face carrying the rounding-equal pair pA, pEq
follows an untriangulated face, so the double exp.Next() of lines
119/123 skips it and its points are never inserted: the final vertex
table is empty and the shared SpatialKey maps to no output vertex. -/
theorem equal_key_points_unmapped_after_skip :
    spatialKey 6 pEq = spatialKey 6 pA ∧ pEq ≠ pA ∧
    (convert inpSkipEq 6 none).mesh.vmap = [] ∧
    lookupV (convert inpSkipEq 6 none).mesh.vmap (spatialKey 6 pA) = none := by
  decide

/-- Claim C4: every index of every appended triangle is a valid index
into the vertex list; the invariant is preserved by every node
insertion, by every triangle append, by the whole walk, and holds of the
final mesh of every conversion. -/
theorem triangle_indices_always_valid :
    (∀ (d : ℕ) (st : MState) (p : Point), MeshInv st → MeshInv (insertNode d st p)) ∧
    (∀ (d : ℕ) (trsf : Point → Point) (t : Triangulation) (st : MState) (tr : ℕ × ℕ × ℕ),
      MeshInv st → MeshInv (processTri d trsf t st tr)) ∧
    (∀ (d total : ℕ) (fs : List Face) (w : WState),
      MeshInv w.mesh → MeshInv (stepFaces d total fs w).1.mesh) ∧
    (∀ (inp : Input) (d : ℕ) (cb : Cb), TriOk (convert inp d cb).mesh) :=
  ⟨fun d st p h => (insertNode_spec d st p).1 h,
   fun d trsf t st tr h => (processTri_spec d trsf t st tr).1 h,
   fun d total fs w h => stepFaces_meshInv d total fs w h,
   fun inp d cb => (convert_meshInv inp d cb).2⟩

/-- Witness for C4 at concrete inputs: a concrete insertion preserves the
invariant, and the single triangle (0, 1, 2) of the inpOne conversion
has all three indices below the vertex count. -/
theorem triangle_indices_always_valid_witness :
    MeshInv (insertNode 6 emptyMState pA) ∧
    (0 : ℕ) < (convert inpOne 6 none).mesh.vertices.length ∧
    (1 : ℕ) < (convert inpOne 6 none).mesh.vertices.length ∧
    (2 : ℕ) < (convert inpOne 6 none).mesh.vertices.length :=
  ⟨triangle_indices_always_valid.1 6 emptyMState pA emptyMState_meshInv,
   (triangle_indices_always_valid.2.2.2 inpOne 6 none (0, 1, 2) (by decide)).1,
   (triangle_indices_always_valid.2.2.2 inpOne 6 none (0, 1, 2) (by decide)).2.1,
   (triangle_indices_always_valid.2.2.2 inpOne 6 none (0, 1, 2) (by decide)).2.2⟩

/-- Claim C9: any exception raised by the observer callback is caught and
discarded (safeCall), so the whole conversion outcome — success flag,
message, event trace, final mesh, counters — is identical to a run with
a non-raising observer or with no observer at all; with no observer each
checkpoint reduces to a no-op that cannot raise. -/
theorem observer_exceptions_isolated :
    ∀ (inp : Input) (d : ℕ) (cb : Cb), convert inp d cb = convert inp d none :=
  fun _ _ _ => rfl

/-- Claim C10: every vertex stored in the output mesh is exactly its
SpatialKey: for every key k in the vertex table, vertices[vertex_map[k]]
equals the triple k, so the output geometry is quantized to the
configured precision. -/
theorem mesh_vertices_equal_spatial_keys :
    ∀ (inp : Input) (d : ℕ) (cb : Cb) (k : SKey) (i : ℕ),
      lookupV (convert inp d cb).mesh.vmap k = some i →
      (convert inp d cb).mesh.vertices.get? i = some k :=
  fun inp d cb k i h => (convert_meshInv inp d cb).1 (k, i) (lookupV_eq_some h)

/-- Witness for C10: in the inpOne conversion the key of pA maps to index
0 and vertex 0 is exactly that key. -/
theorem mesh_vertices_equal_spatial_keys_witness :
    (convert inpOne 6 none).mesh.vertices.get? 0 = some (spatialKey 6 pA) :=
  mesh_vertices_equal_spatial_keys inpOne 6 none (spatialKey 6 pA) 0 (by decide)

/-- Claim C7: if the enumerated face total is zero, the conversion fails
with the no-faces-found error before any mesh work (the mesh state is
untouched and no face is visited), and the observer receives exactly one
error checkpoint, carrying percent 0 and state error, as the terminal
event of the trace, with no further checkpoints after it. -/
theorem zero_faces_error_behavior :
    ∀ (inp : Input) (d : ℕ) (cb : Cb),
      inp.srcExists = true → inp.libsOk = true → inp.readOk = true →
      inp.faces = [] →
      (convert inp d cb).ok = false ∧
      (convert inp d cb).message = "No faces found in STEP file." ∧
      (convert inp d cb).mesh = emptyMState ∧
      (convert inp d cb).facesVisited = 0 ∧
      (convert inp d cb).events = [evStart, evLoaded, evMeshing, evMeshed, evNoFaces] ∧
      (convert inp d cb).events.getLast? = some evNoFaces ∧
      ((convert inp d cb).events.filter fun e => e.state = "error") = [evNoFaces] ∧
      evNoFaces.percent = 0 ∧ evNoFaces.state = "error" := by
  intro inp d cb h1 h2 h3 h4
  unfold convert
  rw [h1, h2, h3, h4]
  dsimp only
  rw [if_neg (by decide), if_neg (by decide), if_neg (by decide), if_pos (by decide)]
  exact ⟨rfl, rfl, rfl, rfl, rfl, by decide, by decide, rfl, rfl⟩

/-- Witness for C7 at the concrete zero-face input. -/
theorem zero_faces_error_behavior_witness :
    (convert inpNoFaces 6 none).ok = false ∧
    (convert inpNoFaces 6 none).message = "No faces found in STEP file." ∧
    (convert inpNoFaces 6 none).mesh = emptyMState ∧
    (convert inpNoFaces 6 none).events.getLast? = some evNoFaces :=
  ⟨(zero_faces_error_behavior inpNoFaces 6 none rfl rfl rfl rfl).1,
   (zero_faces_error_behavior inpNoFaces 6 none rfl rfl rfl rfl).2.1,
   (zero_faces_error_behavior inpNoFaces 6 none rfl rfl rfl rfl).2.2.1,
   (zero_faces_error_behavior inpNoFaces 6 none rfl rfl rfl rfl).2.2.2.2.2.1⟩

/-- Claim C8: when the shape has at least one face but the walk
accumulates no vertices or no triangles, the conversion fails with the
no-mesh-extracted error — a failure distinct from the zero-faces error —
the trace ends with that error checkpoint, and no export happens (no
exporting or finished checkpoint is ever emitted). -/
theorem empty_mesh_error_behavior :
    ∀ (inp : Input) (d : ℕ) (cb : Cb),
      inp.srcExists = true → inp.libsOk = true → inp.readOk = true →
      inp.faces ≠ [] →
      (stepFaces d inp.faces.length inp.faces ⟨emptyMState, 0, []⟩).2 = false →
      ((stepFaces d inp.faces.length inp.faces ⟨emptyMState, 0, []⟩).1.mesh.vertices = [] ∨
       (stepFaces d inp.faces.length inp.faces ⟨emptyMState, 0, []⟩).1.mesh.tris = []) →
      (convert inp d cb).ok = false ∧
      (convert inp d cb).message = "No mesh extracted from STEP file." ∧
      (convert inp d cb).message ≠ "No faces found in STEP file." ∧
      (convert inp d cb).events.getLast? = some evEmptyMesh ∧
      evEmptyMesh.percent = 0 ∧ evEmptyMesh.state = "error" ∧
      ∀ e ∈ (convert inp d cb).events, e.state ≠ "exporting" ∧ e.state ≠ "finished" := by
  intro inp d cb h1 h2 h3 h4 hnr h5
  have hlen : ¬ inp.faces.length = 0 := fun hc => h4 (List.length_eq_zero.mp hc)
  unfold convert
  rw [h1, h2, h3]
  dsimp only
  rw [if_neg (by decide), if_neg (by decide), if_neg (by decide), if_neg hlen,
    if_neg (by simp [hnr]), if_pos h5]
  obtain ⟨fps, he, -, hb⟩ :=
    stepFaces_events d inp.faces.length inp.faces ⟨emptyMState, 0, []⟩
  simp only [List.nil_append] at he
  refine ⟨rfl, rfl, ?_, ?_, rfl, rfl, ?_⟩
  · show ("No mesh extracted from STEP file." : String) ≠ "No faces found in STEP file."
    decide
  · exact List.getLast?_concat _
  · intro e hmem
    rcases List.mem_append.mp hmem with hl | hr
    · rcases List.mem_append.mp hl with hll | hlr
      · simp only [List.mem_cons, List.not_mem_nil, or_false] at hll
        rcases hll with h | h | h | h <;> subst h <;> exact ⟨by decide, by decide⟩
      · rw [he] at hlr
        obtain ⟨fp, -, hfp⟩ := List.mem_map.mp hlr
        rw [← hfp, Ne, Ne, procEvent_state]
        exact ⟨by decide, by decide⟩
    · have heq : e = evEmptyMesh := by simpa using hr
      subst heq
      exact ⟨by decide, by decide⟩

/-- Witness for C8 at the concrete two-untriangulated-face input, whose
walk completes normally and produces an empty mesh. -/
theorem empty_mesh_error_behavior_witness :
    (convert inpNoneTwo 6 none).ok = false ∧
    (convert inpNoneTwo 6 none).message = "No mesh extracted from STEP file." ∧
    (convert inpNoneTwo 6 none).events.getLast? = some evEmptyMesh :=
  ⟨(empty_mesh_error_behavior inpNoneTwo 6 none rfl rfl rfl
      (by simp [inpNoneTwo]) (by decide) (Or.inl (by decide))).1,
   (empty_mesh_error_behavior inpNoneTwo 6 none rfl rfl rfl
      (by simp [inpNoneTwo]) (by decide) (Or.inl (by decide))).2.1,
   (empty_mesh_error_behavior inpNoneTwo 6 none rfl rfl rfl
      (by simp [inpNoneTwo]) (by decide) (Or.inl (by decide))).2.2.2.1⟩

theorem isProc_true_iff (e : Event) : isProc e = true ↔ e.state = "processing" := by
  simp [isProc]

/-- The percent sequence of a successful trace is non-decreasing:
[1, 5, 8, 12], then the walk percents (all between 12 and 90, increasing),
then [90, 100]. -/
theorem chain_le_success (total a b : ℕ) (fps : List ℕ)
    (hch : List.Chain' (· < ·) fps) (hb : ∀ fp ∈ fps, fp ≤ total) :
    List.Chain' (· ≤ ·)
      (List.map Event.percent
        (([evStart, evLoaded, evMeshing, evMeshed] ++
          fps.map (fun fp => procEvent fp total)) ++ [evExporting, evFinished total a b])) := by
  have hmem : ∀ x ∈ fps.map (fun fp => procEvent fp total),
      (12 : ℤ) ≤ x.percent ∧ x.percent ≤ 90 := by
    intro x hx
    obtain ⟨fp, hfp, hfx⟩ := List.mem_map.mp hx
    rw [← hfx, percent_procEvent]
    exact ⟨pctOf_ge_12 _ _, pctOf_le_90 (hb fp hfp)⟩
  rw [List.map_append, List.map_append, List.chain'_append]
  refine ⟨?_, ?_, ?_⟩
  · rw [List.chain'_append]
    refine ⟨?_, ?_, ?_⟩
    · show List.Chain' (· ≤ ·) [(1 : ℤ), 5, 8, 12]
      norm_num [List.chain'_cons]
    · rw [List.map_map]
      refine (List.chain'_map _).mpr (hch.imp ?_)
      intro x y hxy
      exact pctOf_mono total (le_of_lt hxy)
    · intro x hx y hy
      obtain rfl : (12 : ℤ) = x := by
        simpa [evStart, evLoaded, evMeshing, evMeshed] using hx
      have hy' := List.mem_of_mem_head? hy
      obtain ⟨e, he, hey⟩ := List.mem_map.mp hy'
      rw [← hey]
      exact (hmem e he).1
  · show List.Chain' (· ≤ ·) [(90 : ℤ), 100]
    norm_num [List.chain'_cons]
  · intro x hx y hy
    obtain rfl : (90 : ℤ) = y := by simpa [evExporting, evFinished] using hy
    have hx' := List.mem_of_mem_getLast? hx
    rcases List.mem_append.mp hx' with h1 | h2
    · obtain ⟨e, he, hex⟩ := List.mem_map.mp h1
      rw [← hex]
      have : e = evStart ∨ e = evLoaded ∨ e = evMeshing ∨ e = evMeshed := by
        simpa using he
      rcases this with h | h | h | h <;> subst h <;> decide
    · obtain ⟨e, he, hex⟩ := List.mem_map.mp h2
      rw [← hex]
      obtain ⟨fp, hfp, hfe⟩ := List.mem_map.mp he
      rw [← hfe]
      exact (hmem _ (List.mem_map.mpr ⟨fp, hfp, rfl⟩)).2

/-- Claim C6 (amended): every trace starts at percent at most 1; on a
successful conversion the full percent sequence is non-decreasing and
ends exactly at 100 with state finished; on a failing conversion the
trace ends with an error-state event, which carries percent 0 (and is
therefore exempt from monotonicity), with no further events after it. -/
theorem progress_sequence_spec :
    ∀ (inp : Input) (d : ℕ) (cb : Cb),
      (∀ e0, (convert inp d cb).events.head? = some e0 → e0.percent ≤ 1) ∧
      ((convert inp d cb).ok = true →
        List.Chain' (· ≤ ·) ((convert inp d cb).events.map Event.percent) ∧
        ∃ e, (convert inp d cb).events.getLast? = some e ∧
          e.percent = 100 ∧ e.state = "finished") ∧
      ((convert inp d cb).ok = false →
        ∃ e, (convert inp d cb).events.getLast? = some e ∧
          e.state = "error" ∧ e.percent = 0) := by
  intro inp d cb
  obtain ⟨fps, he, hch, hb⟩ :=
    stepFaces_events d inp.faces.length inp.faces ⟨emptyMState, 0, []⟩
  simp only [List.nil_append] at he
  have hfin := (stepFaces_fp d inp.faces.length inp.faces ⟨emptyMState, 0, []⟩).2
  simp only at hfin hb
  have hble : ∀ fp ∈ fps, fp ≤ inp.faces.length := by
    intro fp hfp
    exact le_trans (hb fp hfp).2.1 (by omega)
  unfold convert
  dsimp only
  split_ifs with hsrc hlibs hread htot hraise hempty hexp
  · refine ⟨?_, ?_, ?_⟩
    · intro e0 h
      simp only [List.head?_cons, Option.some_inj] at h
      subst h
      decide
    · intro hc
      simp at hc
    · intro _
      exact ⟨evNotFound, by decide, rfl, rfl⟩
  · refine ⟨?_, ?_, ?_⟩
    · intro e0 h
      simp only [List.head?_cons, Option.some_inj] at h
      subst h
      decide
    · intro hc
      simp at hc
    · intro _
      exact ⟨evLibsMissing, by decide, rfl, rfl⟩
  · refine ⟨?_, ?_, ?_⟩
    · intro e0 h
      simp only [List.head?_cons, Option.some_inj] at h
      subst h
      decide
    · intro hc
      simp at hc
    · intro _
      exact ⟨evReadFail, by decide, rfl, rfl⟩
  · refine ⟨?_, ?_, ?_⟩
    · intro e0 h
      simp only [List.head?_cons, Option.some_inj] at h
      subst h
      decide
    · intro hc
      simp at hc
    · intro _
      exact ⟨evNoFaces, by decide, rfl, rfl⟩
  · refine ⟨?_, ?_, ?_⟩
    · intro e0 h
      simp only [List.cons_append, List.head?_cons, Option.some_inj] at h
      subst h
      decide
    · intro hc
      simp at hc
    · intro _
      exact ⟨evException, List.getLast?_concat _, rfl, rfl⟩
  · refine ⟨?_, ?_, ?_⟩
    · intro e0 h
      simp only [List.cons_append, List.head?_cons, Option.some_inj] at h
      subst h
      decide
    · intro hc
      simp at hc
    · intro _
      exact ⟨evEmptyMesh, List.getLast?_concat _, rfl, rfl⟩
  · refine ⟨?_, ?_, ?_⟩
    · intro e0 h
      simp only [List.cons_append, List.head?_cons, Option.some_inj] at h
      subst h
      decide
    · intro hc
      simp at hc
    · intro _
      refine ⟨evException, ?_, rfl, rfl⟩
      rw [List.getLast?_append]
      rfl
  · refine ⟨?_, ?_, ?_⟩
    · intro e0 h
      simp only [List.cons_append, List.head?_cons, Option.some_inj] at h
      subst h
      decide
    · intro _
      constructor
      · rw [he]
        exact chain_le_success inp.faces.length _ _ fps hch hble
      · refine ⟨evFinished inp.faces.length
            (stepFaces d inp.faces.length inp.faces ⟨emptyMState, 0, []⟩).1.mesh.triCount
            (stepFaces d inp.faces.length inp.faces
              ⟨emptyMState, 0, []⟩).1.mesh.vertices.length, ?_, rfl, rfl⟩
        rw [List.getLast?_append]
        rfl
    · intro hc
      simp at hc

/-- Counterexample to claim C6 as stated: a failed STEP read produces the
percent sequence [1, 0], which is not non-decreasing — the terminal
error checkpoint carries percent 0 after the starting checkpoint at 1. -/
theorem percent_sequence_decreasing_on_failure_cex :
    (convert inpReadFail 6 none).events.map Event.percent = [1, 0] ∧
    ¬ List.Chain' (· ≤ ·) ((convert inpReadFail 6 none).events.map Event.percent) := by
  refine ⟨by decide, ?_⟩
  intro h
  rw [show (convert inpReadFail 6 none).events.map Event.percent = [1, 0] from by decide] at h
  have h10 := (List.chain'_cons.mp h).1
  norm_num at h10

/-- Witness for C6 (amended) at the concrete successful input inpOne. -/
theorem progress_sequence_spec_witness :
    List.Chain' (· ≤ ·) ((convert inpOne 6 none).events.map Event.percent) ∧
    ∃ e, (convert inpOne 6 none).events.getLast? = some e ∧
      e.percent = 100 ∧ e.state = "finished" :=
  (progress_sequence_spec inpOne 6 none).2.1 (by decide)

/-- Claim C5 (amended): every periodic processing update carries percent
12 + floor(processed * 78 / total) for its processed-face count, the
processing percents are non-decreasing across the run, and whenever
every face has a triangulation and the conversion succeeds, the last
processing update is the final-face update at exactly 90, immediately
before the export checkpoint.  (When a face lacks a triangulation, the
double explorer advance can prevent the final-face update: see the C2
evidence.) -/
theorem processing_percent_formula_and_monotone :
    ∀ (inp : Input) (d : ℕ) (cb : Cb),
      (∀ e ∈ (convert inp d cb).events, e.state = "processing" →
        ∃ fp, 1 ≤ fp ∧ fp ≤ inp.faces.length ∧
          e = procEvent fp inp.faces.length ∧
          e.percent = 12 + (((fp * 78) / inp.faces.length : ℕ) : ℤ)) ∧
      List.Chain' (· ≤ ·)
        (((convert inp d cb).events.filter isProc).map Event.percent) ∧
      ((∀ f ∈ inp.faces, f.triangulation.isSome = true) →
        (convert inp d cb).ok = true →
        ∃ pre, (convert inp d cb).events = pre ++
            [procEvent inp.faces.length inp.faces.length, evExporting,
              evFinished inp.faces.length (convert inp d cb).mesh.triCount
                (convert inp d cb).mesh.vertices.length] ∧
          (procEvent inp.faces.length inp.faces.length).percent = 90) := by
  intro inp d cb
  obtain ⟨fps, hf1, hf2, hf3⟩ := convert_filter_isProc inp d cb
  refine ⟨?_, ?_, ?_⟩
  · intro e hmem hst
    have hfe : e ∈ (convert inp d cb).events.filter isProc :=
      List.mem_filter.mpr ⟨hmem, (isProc_true_iff e).mpr hst⟩
    rw [hf1] at hfe
    obtain ⟨fp, hfp, hfpe⟩ := List.mem_map.mp hfe
    have hbfp := hf3 fp hfp
    exact ⟨fp, hbfp.1, hbfp.2.1, hfpe.symm, by rw [← hfpe]; rfl⟩
  · rw [hf1, List.map_map]
    refine (List.chain'_map _).mpr (hf2.imp ?_)
    intro x y hxy
    exact pctOf_mono inp.faces.length (le_of_lt hxy)
  · intro hall hok
    unfold convert at hok ⊢
    dsimp only at hok ⊢
    split_ifs at hok ⊢ with hsrc hlibs hread htot hraise hempty hexp
    obtain ⟨pre0, hpre⟩ :=
      stepFaces_lastEvent d inp.faces.length inp.faces ⟨emptyMState, 0, []⟩ hall
        (fun hc => htot (by simp [hc])) (by simp)
    dsimp only
    rw [hpre]
    refine ⟨[evStart, evLoaded, evMeshing, evMeshed] ++ pre0, ?_, ?_⟩
    · simp [List.append_assoc]
    · rw [percent_procEvent, pctOf_total htot]

/-- Counterexample to claim C5 as stated: the inpSkip4 conversion (four
faces, the second untriangulated) succeeds and reaches the export
checkpoint, the processing updates carry percents [31, 70], and no
processing update ever reports 90: the percents do not reach 90 at the
final face. -/
theorem processing_percents_never_reach_90_cex :
    (convert inpSkip4 6 none).ok = true ∧
    ((convert inpSkip4 6 none).events.filter fun e => e.state = "exporting") ≠ [] ∧
    ((convert inpSkip4 6 none).events.filter isProc).map Event.percent = [31, 70] ∧
    ¬ (90 : ℤ) ∈ ((convert inpSkip4 6 none).events.filter isProc).map Event.percent := by
  decide

/-- Witness for C5 (amended) at the concrete all-triangulated input
inpTwo: the trace ends with the final-face update at 90, the export
checkpoint and the finished checkpoint. -/
theorem processing_percent_formula_witness :
    ∃ pre, (convert inpTwo 6 none).events = pre ++
        [procEvent inpTwo.faces.length inpTwo.faces.length, evExporting,
          evFinished inpTwo.faces.length (convert inpTwo 6 none).mesh.triCount
            (convert inpTwo 6 none).mesh.vertices.length] ∧
      (procEvent inpTwo.faces.length inpTwo.faces.length).percent = 90 :=
  (processing_percent_formula_and_monotone inpTwo 6 none).2.2 (by decide) (by decide)

end StepGlb
